import Mathlib

/-!
# libvoikko, `morphology/Analyzer.cpp`: the cleanup routine `Analyzer::deleteAnalyses`

The source function is

    void Analyzer::deleteAnalyses(list<Analysis *> * &analyses) {
        list<Analysis *>::iterator it = analyses->begin();
        while (it != analyses->end()) {
            delete *it++;
        }
        delete analyses;
        analyses = 0;
    }

It is embedded as a function on an explicit memory state.

* Pointers are `Option Addr`; `none` is the null pointer (the literal `0`).
* The heap has two typed regions: the live `Analysis` objects and the live
  `list<Analysis *>` containers.  A handle variable (an lvalue of type
  `list<Analysis *> *`) is a slot of `State.vars`; the reference parameter
  `analyses` is the name of such a slot.
* Every mutating statement appends one `Effect` to the trace of the run, and the
  memory state of a run is the replay of its trace.
* Undefined behaviour stops the run with a `Fault`, and no later statement is
  executed: dereferencing a null handle, dereferencing a handle whose container
  is not live, and `delete` on a non-null pointer whose target is not live (a
  double free or a dangling element).  The offending `delete` is still logged in
  the trace and in `Machine.invalidFrees`.
* The `while` loop is iterated with a fuel bound on the number of iterations;
  the theorems show that fuel equal to the length of the list is enough.
-/

namespace libvoikko.morphology

/-- Modelled from the spec: the `Analysis` record (`morphology/Analysis.hpp` is
not part of the sources at hand), a mapping from attribute key to attribute
value.  Its destructor is taken to destroy the record itself and nothing
else. -/
abbrev Analysis := List (String × String)

/-- Addresses of heap objects. -/
abbrev Addr := Nat

/-- Pointer values; `none` is the null pointer. -/
abbrev Ptr := Option Addr

/-- Names of handle variables (lvalues of type `list<Analysis *> *`). -/
abbrev Var := Nat

/-- Memory state. -/
structure State where
  /-- live `Analysis` objects and their contents -/
  objs : Addr → Option Analysis
  /-- live `list<Analysis *>` containers and their elements -/
  lists : Addr → Option (List Ptr)
  /-- values of the handle variables -/
  vars : Var → Ptr

/-- Mutating effects, one per executed statement. -/
inductive Effect where
  /-- statement `delete *it` on an element pointer -/
  | destroyAnalysis (a : Ptr)
  /-- statement `delete analyses` on the value of the handle -/
  | destroyList (p : Ptr)
  /-- statement `analyses = 0` -/
  | setHandle (v : Var) (val : Ptr)
  deriving DecidableEq, Repr

/-- Faults that stop a run. -/
inductive Fault where
  /-- dereference `analyses->` of a null handle -/
  | nullDeref
  /-- dereference `analyses->` of a handle whose container is not live -/
  | danglingDeref
  /-- dereference `*it` of an iterator that is not inside the list -/
  | iteratorOutOfRange
  /-- statement `delete` on a non-null pointer whose target is not live -/
  | invalidFree
  /-- the iteration bound of the model was reached -/
  | outOfFuel
  deriving DecidableEq, Repr

/-- Configuration of a run of `deleteAnalyses`. -/
structure Machine where
  state : State
  /-- the local iterator `it`, as a position in the list -/
  it : Nat
  /-- mutating effects performed so far, oldest first -/
  trace : List Effect
  /-- addresses read through the handle so far, oldest first -/
  derefs : List Addr
  /-- completed executions of the loop body -/
  iters : Nat
  /-- effects that freed something not live (double free), oldest first -/
  invalidFrees : List Effect
  fault : Option Fault

/-- Remove the object at `a` from a heap region. -/
def free {α : Type} (h : Addr → Option α) (a : Addr) : Addr → Option α :=
  fun x => if x = a then none else h x

/-- Assign `val` to the handle variable `v`. -/
def assign (vars : Var → Ptr) (v : Var) (val : Ptr) : Var → Ptr :=
  fun w => if w = v then val else vars w

/-- Configuration at function entry. -/
def Machine.init (σ : State) : Machine :=
  { state := σ, it := 0, trace := [], derefs := [], iters := 0, invalidFrees := [], fault := none }

/-- Evaluation of `analyses->` : read the handle variable, then the memory it
points to. A null handle traps before anything is read; a non-null handle is
read through, and the run stops if no live container is there. -/
def derefHandle (v : Var) (m : Machine) : Machine × Option (List Ptr) :=
  match m.state.vars v with
  | none => ({ m with fault := some Fault.nullDeref }, none)
  | some p =>
    match m.state.lists p with
    | none => ({ m with derefs := m.derefs ++ [p], fault := some Fault.danglingDeref }, none)
    | some l => ({ m with derefs := m.derefs ++ [p] }, some l)

/-- Statement `delete a` for an element pointer `a : Analysis *`.  Deleting the
null pointer does nothing; deleting a live object removes it; deleting anything
else is an invalid free, which stops the run. -/
def deleteAnalysis (a : Ptr) (m : Machine) : Machine :=
  match a with
  | none => { m with trace := m.trace ++ [Effect.destroyAnalysis none] }
  | some x =>
    match m.state.objs x with
    | some _ =>
      { m with state := { m.state with objs := free m.state.objs x },
               trace := m.trace ++ [Effect.destroyAnalysis (some x)] }
    | none =>
      { m with trace := m.trace ++ [Effect.destroyAnalysis (some x)],
               invalidFrees := m.invalidFrees ++ [Effect.destroyAnalysis (some x)],
               fault := some Fault.invalidFree }

/-- Loop body `delete *it++;` on the list `l` read through the handle: take the
element under the iterator, advance the iterator, delete the element. The body
is completed only if the delete did not stop the run. -/
def loopBody (l : List Ptr) (m : Machine) : Machine :=
  match l[m.it]? with
  | none => { m with fault := some Fault.iteratorOutOfRange }
  | some a =>
    let m1 := deleteAnalysis a { m with it := m.it + 1 }
    match m1.fault with
    | some _ => m1
    | none => { m1 with iters := m1.iters + 1 }

/-- The loop `while (it != analyses->end()) { delete *it++; }`, with at most
`fuel` executions of the body.  The handle is dereferenced anew at every test of
the loop condition. -/
def walk : Nat → Var → Machine → Machine
  | fuel, v, m =>
    match derefHandle v m with
    | (m1, none) => m1
    | (m1, some l) =>
      if m1.it ≠ l.length then
        match fuel with
        | 0 => { m1 with fault := some Fault.outOfFuel }
        | fuel + 1 =>
          let m2 := loopBody l m1
          match m2.fault with
          | some _ => m2
          | none => walk fuel v m2
      else m1

/-- Statement `delete analyses;` : destroy the container the handle points to.
Deleting a container that is not live is an invalid free, which stops the run. -/
def deleteList (v : Var) (m : Machine) : Machine :=
  match m.state.vars v with
  | none => { m with trace := m.trace ++ [Effect.destroyList none] }
  | some p =>
    match m.state.lists p with
    | some _ =>
      { m with state := { m.state with lists := free m.state.lists p },
               trace := m.trace ++ [Effect.destroyList (some p)] }
    | none =>
      { m with trace := m.trace ++ [Effect.destroyList (some p)],
               invalidFrees := m.invalidFrees ++ [Effect.destroyList (some p)],
               fault := some Fault.invalidFree }

/-- Statement `analyses = 0;`. -/
def nullHandle (v : Var) (m : Machine) : Machine :=
  { m with state := { m.state with vars := assign m.state.vars v none },
           trace := m.trace ++ [Effect.setHandle v none] }

/-- The routine `Analyzer::deleteAnalyses(list<Analysis *> * &analyses)`, where `v`
names the caller's handle variable bound to the reference `analyses`. A fault in
one statement ends the run there. -/
def deleteAnalyses (fuel : Nat) (v : Var) (σ : State) : Machine :=
  -- list<Analysis *>::iterator it = analyses->begin();
  match derefHandle v (Machine.init σ) with
  | (m0, none) => m0
  | (m0, some _) =>
    -- while (it != analyses->end()) { delete *it++; }
    let m1 := walk fuel v { m0 with it := 0 }
    match m1.fault with
    | some _ => m1
    | none =>
      -- delete analyses;
      let m2 := deleteList v m1
      match m2.fault with
      | some _ => m2
      | none =>
        -- analyses = 0;
        nullHandle v m2

/-- Meaning of one effect on the memory state. -/
def Effect.run : Effect → State → State
  | Effect.destroyAnalysis none, σ => σ
  | Effect.destroyAnalysis (some x), σ => { σ with objs := free σ.objs x }
  | Effect.destroyList none, σ => σ
  | Effect.destroyList (some p), σ => { σ with lists := free σ.lists p }
  | Effect.setHandle v val, σ => { σ with vars := assign σ.vars v val }

/-- Memory state reached from `σ` by performing the effects `es` in order. -/
def replay (es : List Effect) (σ : State) : State :=
  es.foldl (fun s e => e.run s) σ

/-- One test of the loop condition followed by the `delete` of the element `a`,
for a handle pointing to the container at `p`. -/
def sweepStep (p : Addr) (a : Ptr) (m : Machine) : Machine :=
  deleteAnalysis a { m with derefs := m.derefs ++ [p], it := m.it + 1 }

/-- Walk of the loop over the elements `xs` still ahead of the iterator, for a
handle pointing to the container at `p`: the specification of `walk` used in the
proofs. It stops at the first delete that faults. -/
def sweep (p : Addr) : List Ptr → Machine → Machine
  | [], m => { m with derefs := m.derefs ++ [p] }
  | a :: rest, m =>
    match (sweepStep p a m).fault with
    | some _ => sweepStep p a m
    | none => sweep p rest { sweepStep p a m with iters := (sweepStep p a m).iters + 1 }

/-- The handle variable `v` is Live in `σ`: it points to a live container. -/
def Live (σ : State) (v : Var) : Prop :=
  ∃ p l, σ.vars v = some p ∧ σ.lists p = some l

/-- The handle variable `v` is Released in `σ`: it holds the invalid sentinel. -/
def Released (σ : State) (v : Var) : Prop :=
  σ.vars v = none

/-- Configuration in which the loop is entered: the handle has been read once,
for `analyses->begin()`. -/
def entry (σ : State) (p : Addr) : Machine :=
  { Machine.init σ with derefs := [p], it := 0 }

/-- A sequence of release steps on the handle `v`, one call of `deleteAnalyses`
per fuel bound in `fuels`; each call starts in the memory state the previous one
left behind. -/
def releases (fuels : List Nat) (v : Var) (σ : State) : State :=
  fuels.foldl (fun s fuel => (deleteAnalyses fuel v s).state) σ

/-- Sample memory.  Analyses live at 1, 2 and 7.  Containers: at 10 the list
`[1, null, 2]`, at 11 the list `[1, 1]`, at 12 the empty list.  Handles: variable
0 points to 10, variable 1 to 11, variable 2 to 12, variable 3 is a second
pointer to 10, variable 4 points to no container, every other variable is
null. -/
def sampleState : State :=
  { objs := fun a =>
      if a = 1 then some [("BASEFORM", "kissa"), ("CLASS", "nimisana")]
      else if a = 2 then some [("BASEFORM", "koira"), ("CLASS", "nimisana")]
      else if a = 7 then some [("BASEFORM", "talo"), ("CLASS", "nimisana")]
      else none,
    lists := fun p =>
      if p = 10 then some [some 1, none, some 2]
      else if p = 11 then some [some 1, some 1]
      else if p = 12 then some []
      else none,
    vars := fun v =>
      if v = 0 then some 10
      else if v = 1 then some 11
      else if v = 2 then some 12
      else if v = 3 then some 10
      else if v = 4 then some 99
      else none }

/-! ## The `analyze` operation -/

/-- Modelled from the spec: morphemes, the matches the Morphological Model
returns (the model itself is outside the sources at hand). -/
abbrev Morpheme := String

/-- Modelled from the spec: morphotactic states of the Morphological Model. -/
abbrev MorphState := Nat

/-- Modelled from the spec: the read-only query contract of the Morphological
Model (spec section 6), with the state in which the search of a word starts. -/
structure Model where
  /-- query `matchMorphemes(remainingSuffix, currentState)`: the matching morphemes,
  each with its consumed length and its successor state, in the order of the
  model -/
  matchMorphemes : List Char → MorphState → List (Morpheme × Nat × MorphState)
  /-- query `attributeRules(morphemeSequence)`: the attribute bundle of a segmentation -/
  attributeRules : List Morpheme → Analysis
  /-- query `isTerminalState(state)` -/
  isTerminalState : MorphState → Bool
  /-- morphotactic state in which the search of a word starts -/
  initialState : MorphState

/-- Modelled from the spec: Segmentation Search (spec section 4.2, not in the
sources at hand). Depth-first exploration over the remaining input and the
morphotactic state: every match of the model is followed in the order the model
returns it, a match has to consume at least one character, and a path is accepted
when the input is used up in a terminal state. `depth` bounds the recursion. -/
def search (M : Model) : Nat → List Char → MorphState → List Morpheme → List (List Morpheme)
  | 0, _, _, _ => []
  | depth + 1, rest, st, path =>
    if rest = [] then
      if M.isTerminalState st then [path.reverse] else []
    else
      (M.matchMorphemes rest st).flatMap fun mt =>
        if 1 ≤ mt.2.1 ∧ mt.2.1 ≤ rest.length then
          search M depth (rest.drop mt.2.1) mt.2.2 (mt.1 :: path)
        else []

/-- Modelled from the spec: the accepted segmentations of a word, in traversal
order; the empty word has none. The depth of the search is bounded by the length
of the word. -/
def segmentations (M : Model) (word : List Char) : List (List Morpheme) :=
  if word = [] then [] else search M (word.length + 1) word M.initialState []

/-- Modelled from the spec: memory with the allocation cursor, the next address
handed out by `new` (the allocator is outside the sources at hand). -/
structure Store where
  mem : State
  brk : Addr

/-- Modelled from the spec: allocation writes the object `x` at address `a` of a
heap region. -/
def store {α : Type} (h : Addr → Option α) (a : Addr) (x : α) : Addr → Option α :=
  fun y => if y = a then some x else h y

/-- Modelled from the spec: one step of collecting the results, `new Analysis`
for the record `a` and append of the pointer to the result list. -/
def pushNew (acc : Store × List Ptr) (a : Analysis) : Store × List Ptr :=
  ({ mem := { acc.1.mem with objs := store acc.1.mem.objs acc.1.brk a },
     brk := acc.1.brk + 1 },
   acc.2 ++ [some acc.1.brk])

/-- Modelled from the spec: `analyze(word)` (spec section 4.4; the implementations
of `Analyzer::analyze` are not in the sources at hand). Every accepted
segmentation is turned into an Analysis by the Analysis Builder, the records are
allocated in traversal order, and the newly allocated result list is returned by
handle. -/
def analyze (M : Model) (word : List Char) (s : Store) : Store × Ptr :=
  let r := ((segmentations M word).map M.attributeRules).foldl pushNew (s, [])
  ({ mem := { r.1.mem with lists := store r.1.mem.lists r.1.brk r.2 }, brk := r.1.brk + 1 },
   some r.1.brk)

/-- The element pointers of the result set behind the handle `h`. -/
def resultElems (σ : State) (h : Ptr) : Option (List Ptr) :=
  match h with
  | none => none
  | some p => σ.lists p

/-- The Analysis contents of the result set behind the handle `h`, in list order;
an element that does not point to a live Analysis reads as `none`. -/
def resultContents (σ : State) (h : Ptr) : Option (List (Option Analysis)) :=
  (resultElems σ h).map fun l => l.map fun a => a.bind σ.objs

/-- Sample model: the stems `kissa` and `talo`, which may follow each other in a
compound, and the ending `ssa` with two readings. -/
def sampleModel : Model :=
  { matchMorphemes := fun rest st =>
      (if st ≤ 1 ∧ "kissa".toList <+: rest then [("kissa", 5, 1)] else []) ++
      (if st ≤ 1 ∧ "talo".toList <+: rest then [("talo", 4, 1)] else []) ++
      (if st = 1 ∧ "ssa".toList <+: rest then [("ssa:INE", 3, 2), ("ssa:ADV", 3, 2)] else []),
    attributeRules := fun ms =>
      [("BASEFORM", String.join (ms.take 2)), ("CLASS", "nimisana"),
       ("STRUCTURE", String.intercalate "=" ms)],
    isTerminalState := fun st => st = 1 ∨ st = 2,
    initialState := 0 }

/-! ## Single statements -/

theorem deleteAnalysis_it (a : Ptr) (m : Machine) :
    (deleteAnalysis a m).it = m.it := by
  unfold deleteAnalysis; split
  · rfl
  · split <;> rfl

theorem deleteAnalysis_iters (a : Ptr) (m : Machine) :
    (deleteAnalysis a m).iters = m.iters := by
  unfold deleteAnalysis; split
  · rfl
  · split <;> rfl

theorem deleteAnalysis_derefs (a : Ptr) (m : Machine) :
    (deleteAnalysis a m).derefs = m.derefs := by
  unfold deleteAnalysis; split
  · rfl
  · split <;> rfl

theorem deleteAnalysis_vars (a : Ptr) (m : Machine) :
    (deleteAnalysis a m).state.vars = m.state.vars := by
  unfold deleteAnalysis; split
  · rfl
  · split <;> rfl

theorem deleteAnalysis_lists (a : Ptr) (m : Machine) :
    (deleteAnalysis a m).state.lists = m.state.lists := by
  unfold deleteAnalysis; split
  · rfl
  · split <;> rfl

theorem deleteAnalysis_trace (a : Ptr) (m : Machine) :
    (deleteAnalysis a m).trace = m.trace ++ [Effect.destroyAnalysis a] := by
  unfold deleteAnalysis; split
  · rfl
  · split <;> rfl

theorem deleteAnalysis_objs (a : Ptr) (m : Machine) (x : Addr) :
    (deleteAnalysis a m).state.objs x = if a = some x then none else m.state.objs x := by
  unfold deleteAnalysis; split
  · simp
  · rename_i y
    split
    · by_cases h : x = y <;> simp [free, h, eq_comm]
    · rename_i hy
      by_cases h : x = y
      · subst h; simp [hy]
      · have : ¬ y = x := fun e => h e.symm
        simp [this]

/-- A delete that did not stop the run was given the null pointer or a pointer
to a live object, and the run had not been stopped before. -/
theorem deleteAnalysis_fault_none (a : Ptr) (m : Machine)
    (h : (deleteAnalysis a m).fault = none) :
    m.fault = none ∧ ∀ x, a = some x → (m.state.objs x).isSome = true := by
  unfold deleteAnalysis at h
  cases a with
  | none => exact ⟨h, fun x hx => Option.noConfusion hx⟩
  | some y =>
    cases hy : m.state.objs y with
    | none => simp [hy] at h
    | some c =>
      simp only [hy] at h
      refine ⟨h, fun x hx => ?_⟩
      have : y = x := Option.some.inj hx
      subst this
      simp [hy]

/-- The delete of the null pointer or of a pointer to a live object performs its
effect and nothing else. -/
theorem deleteAnalysis_live (a : Ptr) (m : Machine)
    (h : ∀ x, a = some x → (m.state.objs x).isSome = true) :
    (deleteAnalysis a m).fault = m.fault ∧
    (deleteAnalysis a m).invalidFrees = m.invalidFrees ∧
    (deleteAnalysis a m).state = (Effect.destroyAnalysis a).run m.state := by
  cases a with
  | none => exact ⟨rfl, rfl, rfl⟩
  | some y =>
    obtain ⟨c, hc⟩ := Option.isSome_iff_exists.mp (h y rfl)
    simp [deleteAnalysis, hc, Effect.run]

/-- The delete of the first of a run of pairwise distinct live elements: it
performs its effect, and the elements after it are still pairwise distinct and
live. -/
theorem step_good (a : Ptr) (rest : List Ptr) (m : Machine)
    (hnd : ((a :: rest).filterMap id).Nodup)
    (hlive : ∀ x, some x ∈ a :: rest → (m.state.objs x).isSome = true) :
    (deleteAnalysis a m).fault = m.fault ∧
    (deleteAnalysis a m).invalidFrees = m.invalidFrees ∧
    (deleteAnalysis a m).state = (Effect.destroyAnalysis a).run m.state ∧
    (rest.filterMap id).Nodup ∧
    ∀ x, some x ∈ rest → ((deleteAnalysis a m).state.objs x).isSome = true := by
  obtain ⟨h1, h2, h3⟩ := deleteAnalysis_live a m
    (fun x hx => hlive x (by rw [hx]; exact List.mem_cons_self _ _))
  refine ⟨h1, h2, h3, ?_, ?_⟩
  · cases a with
    | none => simpa using hnd
    | some y =>
      have : y ∉ rest.filterMap id ∧ (rest.filterMap id).Nodup := by
        simpa [List.filterMap_cons] using hnd
      exact this.2
  · intro x hx
    rw [deleteAnalysis_objs]
    have hne : ¬ a = some x := by
      intro e
      subst e
      have : x ∉ rest.filterMap id ∧ (rest.filterMap id).Nodup := by
        simpa [List.filterMap_cons] using hnd
      apply this.1
      rw [List.mem_filterMap]
      exact ⟨some x, hx, rfl⟩
    simpa [hne] using hlive x (List.mem_cons_of_mem _ hx)

/-! ## The loop as a sweep over the remaining elements -/

/-- On a configuration whose handle points to the live list `l`, with the iterator
inside `l` and enough fuel for the elements ahead, the loop is the sweep over the
elements ahead of the iterator. -/
theorem walk_eq_sweep (fuel : Nat) (v : Var) (p : Addr) (l : List Ptr) :
    ∀ m : Machine, m.state.vars v = some p → m.state.lists p = some l →
      m.it ≤ l.length → l.length - m.it ≤ fuel →
      walk fuel v m = sweep p (l.drop m.it) m := by
  induction fuel with
  | zero =>
    intro m hv hl hle hfuel
    have hit : m.it = l.length := by omega
    unfold walk
    simp [derefHandle, hv, hl, hit, sweep]
  | succ n ih =>
    intro m hv hl hle hfuel
    by_cases hit : m.it = l.length
    · unfold walk
      simp [derefHandle, hv, hl, hit, sweep]
    · have hlt : m.it < l.length := by omega
      have hdrop : l.drop m.it = l[m.it] :: l.drop (m.it + 1) := List.drop_eq_getElem_cons hlt
      have hget : l[m.it]? = some l[m.it] := List.getElem?_eq_getElem hlt
      unfold walk
      simp only [derefHandle, hv, hl, ne_eq, hit, not_false_eq_true, if_true, loopBody, hget,
        hdrop, sweep]
      change (match (match (sweepStep p l[m.it] m).fault with
          | some _ => sweepStep p l[m.it] m
          | none => { sweepStep p l[m.it] m with iters := (sweepStep p l[m.it] m).iters + 1 }).fault with
        | some _ => (match (sweepStep p l[m.it] m).fault with
          | some _ => sweepStep p l[m.it] m
          | none => { sweepStep p l[m.it] m with iters := (sweepStep p l[m.it] m).iters + 1 })
        | none => walk n v (match (sweepStep p l[m.it] m).fault with
          | some _ => sweepStep p l[m.it] m
          | none => { sweepStep p l[m.it] m with
                      iters := (sweepStep p l[m.it] m).iters + 1 })) = _
      cases hf : (sweepStep p l[m.it] m).fault with
      | some f => simp [hf]
      | none =>
        simp only [hf]
        have hit2 : (sweepStep p l[m.it] m).it = m.it + 1 := by
          simp [sweepStep, deleteAnalysis_it]
        have key := ih { sweepStep p l[m.it] m with iters := (sweepStep p l[m.it] m).iters + 1 }
          (by show (sweepStep p l[m.it] m).state.vars v = some p
              simp only [sweepStep, deleteAnalysis_vars]; exact hv)
          (by show (sweepStep p l[m.it] m).state.lists p = some l
              simp only [sweepStep, deleteAnalysis_lists]; exact hl)
          (by show (sweepStep p l[m.it] m).it ≤ l.length
              rw [hit2]; exact hlt)
          (by show l.length - (sweepStep p l[m.it] m).it ≤ n
              rw [hit2]; omega)
        have hit3 : ({ sweepStep p l[m.it] m with
            iters := (sweepStep p l[m.it] m).iters + 1 } : Machine).it = m.it + 1 := hit2
        rw [hit3] at key
        simpa [hf] using key

theorem sweep_vars (p : Addr) (xs : List Ptr) :
    ∀ m : Machine, (sweep p xs m).state.vars = m.state.vars := by
  induction xs with
  | nil => intro m; rfl
  | cons a rest ih =>
    intro m
    simp only [sweep]
    split
    · simp [sweepStep, deleteAnalysis_vars]
    · rw [ih]; simp [sweepStep, deleteAnalysis_vars]

theorem sweep_lists (p : Addr) (xs : List Ptr) :
    ∀ m : Machine, (sweep p xs m).state.lists = m.state.lists := by
  induction xs with
  | nil => intro m; rfl
  | cons a rest ih =>
    intro m
    simp only [sweep]
    split
    · simp [sweepStep, deleteAnalysis_lists]
    · rw [ih]; simp [sweepStep, deleteAnalysis_lists]

/-- The sweep over pairwise distinct live elements runs to the end: every element
is deleted by its own effect and nothing else happens. -/
theorem sweep_good (p : Addr) (xs : List Ptr) :
    ∀ m : Machine, m.fault = none → (xs.filterMap id).Nodup →
      (∀ x, some x ∈ xs → (m.state.objs x).isSome = true) →
      (sweep p xs m).fault = none ∧
      (sweep p xs m).invalidFrees = m.invalidFrees ∧
      (sweep p xs m).trace = m.trace ++ xs.map Effect.destroyAnalysis ∧
      (sweep p xs m).it = m.it + xs.length ∧
      (sweep p xs m).iters = m.iters + xs.length ∧
      (sweep p xs m).state = replay (xs.map Effect.destroyAnalysis) m.state ∧
      ∀ x, (sweep p xs m).state.objs x = if some x ∈ xs then none else m.state.objs x := by
  induction xs with
  | nil =>
    intro m hf _ _
    exact ⟨hf, rfl, by simp [sweep], rfl, rfl, rfl, fun x => by simp [sweep]⟩
  | cons a rest ih =>
    intro m hf hnd hlive
    obtain ⟨s1, s2, s3, s4, s5⟩ :=
      step_good a rest { m with derefs := m.derefs ++ [p], it := m.it + 1 } hnd hlive
    have hs : (sweepStep p a m).fault = none := s1.trans hf
    have hsw : sweep p (a :: rest) m
        = sweep p rest { sweepStep p a m with iters := (sweepStep p a m).iters + 1 } := by
      simp only [sweep, hs]
    obtain ⟨i1, i2, i3, i4, i5, i6, i7⟩ :=
      ih { sweepStep p a m with iters := (sweepStep p a m).iters + 1 } hs s4 s5
    rw [hsw]
    refine ⟨i1, i2.trans s2, ?_, ?_, ?_, ?_, ?_⟩
    · rw [i3]
      show (sweepStep p a m).trace ++ _ = _
      simp [sweepStep, deleteAnalysis_trace]
    · rw [i4]
      show (sweepStep p a m).it + _ = _
      simp [sweepStep, deleteAnalysis_it]; omega
    · rw [i5]
      show (sweepStep p a m).iters + 1 + _ = _
      simp [sweepStep, deleteAnalysis_iters]; omega
    · rw [i6]
      show replay _ (sweepStep p a m).state = _
      have : (sweepStep p a m).state = (Effect.destroyAnalysis a).run m.state := s3
      rw [this]
      simp [replay]
    · intro x
      rw [i7 x]
      show (if some x ∈ rest then none else (sweepStep p a m).state.objs x) = _
      simp only [sweepStep, deleteAnalysis_objs, List.mem_cons]
      by_cases h1 : some x ∈ rest
      · simp [h1]
      · by_cases h2 : a = some x
        · simp [h2]
        · have h3 : ¬ some x = a := fun e => h2 e.symm
          simp [h1, h2, h3]

/-- A sweep that ran to the end was over pairwise distinct live elements. -/
theorem sweep_returned (p : Addr) (xs : List Ptr) :
    ∀ m : Machine, (sweep p xs m).fault = none →
      m.fault = none ∧ (xs.filterMap id).Nodup ∧
      ∀ x, some x ∈ xs → (m.state.objs x).isSome = true := by
  induction xs with
  | nil => intro m h; exact ⟨h, by simp, by simp⟩
  | cons a rest ih =>
    intro m h
    cases hs : (sweepStep p a m).fault with
    | some f =>
      have hsw : sweep p (a :: rest) m = sweepStep p a m := by simp only [sweep, hs]
      rw [hsw, hs] at h
      exact Option.noConfusion h
    | none =>
      have hsw : sweep p (a :: rest) m
          = sweep p rest { sweepStep p a m with iters := (sweepStep p a m).iters + 1 } := by
        simp only [sweep, hs]
      rw [hsw] at h
      obtain ⟨_, hnd, hlive⟩ := ih _ h
      obtain ⟨hf, ha⟩ := deleteAnalysis_fault_none a
        { m with derefs := m.derefs ++ [p], it := m.it + 1 } hs
      have hobjs : ∀ x, some x ∈ rest → ¬ a = some x ∧ (m.state.objs x).isSome = true := by
        intro x hx
        have h1 : ((sweepStep p a m).state.objs x).isSome = true := hlive x hx
        simp only [sweepStep, deleteAnalysis_objs] at h1
        by_cases e : a = some x
        · simp [e] at h1
        · exact ⟨e, by simpa [e] using h1⟩
      refine ⟨hf, ?_, ?_⟩
      · cases a with
        | none => simpa using hnd
        | some y =>
          rw [List.filterMap_cons_some (by rfl : id (some y) = some y), List.nodup_cons]
          refine ⟨?_, hnd⟩
          intro hy
          obtain ⟨q, hq, hqy⟩ := List.mem_filterMap.mp hy
          have hq2 : q = some y := hqy
          subst hq2
          exact (hobjs y hq).1 rfl
      · intro x hx
        rcases List.mem_cons.mp hx with e | e
        · exact ha x e.symm
        · exact (hobjs x e).2

/-- The first pointer that is not live when its delete is reached stops the sweep
there: the elements before it were deleted, its own delete is the last effect
and is an invalid free. -/
theorem sweep_first_repeat (p : Addr) (a : Addr) (rest : List Ptr) (pre : List Ptr) :
    ∀ m : Machine, m.fault = none → (pre.filterMap id).Nodup →
      (∀ x, some x ∈ pre → (m.state.objs x).isSome = true) →
      (some a ∈ pre ∨ m.state.objs a = none) →
      (sweep p (pre ++ some a :: rest) m).fault = some Fault.invalidFree ∧
      (sweep p (pre ++ some a :: rest) m).trace
        = m.trace ++ (pre ++ [some a]).map Effect.destroyAnalysis ∧
      (sweep p (pre ++ some a :: rest) m).invalidFrees
        = m.invalidFrees ++ [Effect.destroyAnalysis (some a)] ∧
      (sweep p (pre ++ some a :: rest) m).iters = m.iters + pre.length := by
  induction pre with
  | nil =>
    intro m _ _ _ hdead
    have hd : m.state.objs a = none := by
      rcases hdead with h | h
      · simp at h
      · exact h
    simp [sweep, sweepStep, deleteAnalysis, hd]
  | cons b pre ih =>
    intro m hf hnd hlive hdead
    obtain ⟨s1, s2, _, s4, s5⟩ :=
      step_good b pre { m with derefs := m.derefs ++ [p], it := m.it + 1 } hnd hlive
    have hs : (sweepStep p b m).fault = none := s1.trans hf
    have hsw : sweep p ((b :: pre) ++ some a :: rest) m
        = sweep p (pre ++ some a :: rest)
            { sweepStep p b m with iters := (sweepStep p b m).iters + 1 } := by
      rw [List.cons_append]
      simp only [sweep, hs]
    have hdead2 : some a ∈ pre ∨ (sweepStep p b m).state.objs a = none := by
      by_cases e : b = some a
      · right; simp [sweepStep, deleteAnalysis_objs, e]
      · rcases hdead with h | h
        · rcases List.mem_cons.mp h with h | h
          · exact absurd h.symm e
          · exact Or.inl h
        · right; simp [sweepStep, deleteAnalysis_objs, e, h]
    obtain ⟨i1, i2, i3, i4⟩ :=
      ih { sweepStep p b m with iters := (sweepStep p b m).iters + 1 } hs s4 s5 hdead2
    rw [hsw]
    refine ⟨i1, ?_, ?_, ?_⟩
    · rw [i2]
      show (sweepStep p b m).trace ++ _ = _
      simp [sweepStep, deleteAnalysis_trace]
    · rw [i3]
      show (sweepStep p b m).invalidFrees ++ _ = _
      have : (sweepStep p b m).invalidFrees = m.invalidFrees := s2
      rw [this]
    · rw [i4]
      show (sweepStep p b m).iters + 1 + _ = _
      simp [sweepStep, deleteAnalysis_iters]; omega

/-- With fewer units of fuel than elements ahead of the iterator, the loop is the
sweep over as many elements as there is fuel, cut off by the iteration bound if
no delete stopped it before. -/
theorem walk_eq_sweep_take (fuel : Nat) (v : Var) (p : Addr) (l : List Ptr) :
    ∀ m : Machine, m.state.vars v = some p → m.state.lists p = some l →
      m.fault = none → m.it ≤ l.length → fuel < l.length - m.it →
      walk fuel v m
        = match (sweep p ((l.drop m.it).take fuel) m).fault with
          | some _ => sweep p ((l.drop m.it).take fuel) m
          | none => { sweep p ((l.drop m.it).take fuel) m with fault := some Fault.outOfFuel } := by
  induction fuel with
  | zero =>
    intro m hv hl hf hle hfuel
    have hit : ¬ m.it = l.length := by omega
    unfold walk
    simp [derefHandle, hv, hl, hit, sweep, hf]
  | succ n ih =>
    intro m hv hl hf hle hfuel
    have hit : ¬ m.it = l.length := by omega
    have hlt : m.it < l.length := by omega
    have hdrop : l.drop m.it = l[m.it] :: l.drop (m.it + 1) := List.drop_eq_getElem_cons hlt
    have hget : l[m.it]? = some l[m.it] := List.getElem?_eq_getElem hlt
    unfold walk
    simp only [derefHandle, hv, hl, ne_eq, hit, not_false_eq_true, if_true, loopBody, hget,
      hdrop, List.take_succ_cons, sweep]
    change (match (match (sweepStep p l[m.it] m).fault with
        | some _ => sweepStep p l[m.it] m
        | none => { sweepStep p l[m.it] m with iters := (sweepStep p l[m.it] m).iters + 1 }).fault with
      | some _ => (match (sweepStep p l[m.it] m).fault with
        | some _ => sweepStep p l[m.it] m
        | none => { sweepStep p l[m.it] m with iters := (sweepStep p l[m.it] m).iters + 1 })
      | none => walk n v (match (sweepStep p l[m.it] m).fault with
        | some _ => sweepStep p l[m.it] m
        | none => { sweepStep p l[m.it] m with
                    iters := (sweepStep p l[m.it] m).iters + 1 })) = _
    cases hs : (sweepStep p l[m.it] m).fault with
    | some f => simp [hs]
    | none =>
      have hit2 : (sweepStep p l[m.it] m).it = m.it + 1 := by
        simp [sweepStep, deleteAnalysis_it]
      have key := ih { sweepStep p l[m.it] m with iters := (sweepStep p l[m.it] m).iters + 1 }
        (by show (sweepStep p l[m.it] m).state.vars v = some p
            simp only [sweepStep, deleteAnalysis_vars]; exact hv)
        (by show (sweepStep p l[m.it] m).state.lists p = some l
            simp only [sweepStep, deleteAnalysis_lists]; exact hl)
        hs
        (by show (sweepStep p l[m.it] m).it ≤ l.length
            rw [hit2]; exact hlt)
        (by show n < l.length - (sweepStep p l[m.it] m).it
            rw [hit2]; omega)
      have hit3 : ({ sweepStep p l[m.it] m with
          iters := (sweepStep p l[m.it] m).iters + 1 } : Machine).it = m.it + 1 := hit2
      rw [hit3] at key
      simpa [hs] using key

/-! ## The whole routine -/

/-- On a Live handle the routine is: loop, then `delete analyses`, then
`analyses = 0`, each only if the run was not stopped before. -/
theorem deleteAnalyses_unfold (fuel : Nat) (v : Var) (σ : State) (p : Addr) (l : List Ptr)
    (hv : σ.vars v = some p) (hl : σ.lists p = some l) :
    deleteAnalyses fuel v σ
      = match (walk fuel v (entry σ p)).fault with
        | some _ => walk fuel v (entry σ p)
        | none =>
          match (deleteList v (walk fuel v (entry σ p))).fault with
          | some _ => deleteList v (walk fuel v (entry σ p))
          | none => nullHandle v (deleteList v (walk fuel v (entry σ p))) := by
  unfold deleteAnalyses
  simp only [derefHandle, Machine.init, hv, hl]
  rfl

theorem walk_entry (fuel : Nat) (v : Var) (σ : State) (p : Addr) (l : List Ptr)
    (hv : σ.vars v = some p) (hl : σ.lists p = some l) (hfuel : l.length ≤ fuel) :
    walk fuel v (entry σ p) = sweep p l (entry σ p) := by
  have := walk_eq_sweep fuel v p l (entry σ p) hv hl (Nat.zero_le _)
    (by show l.length - 0 ≤ fuel; omega)
  simpa [entry, Machine.init] using this

/-- A run whose loop was stopped by a delete ends in the configuration of that
delete. -/
theorem deleteAnalyses_stopped (fuel : Nat) (v : Var) (σ : State) (p : Addr) (l : List Ptr)
    (hv : σ.vars v = some p) (hl : σ.lists p = some l) (hfuel : l.length ≤ fuel)
    (f : Fault) (hS : (sweep p l (entry σ p)).fault = some f) :
    deleteAnalyses fuel v σ = sweep p l (entry σ p) := by
  rw [deleteAnalyses_unfold fuel v σ p l hv hl, walk_entry fuel v σ p l hv hl hfuel]
  simp only [hS]

/-- A run whose loop ran to the end destroys the container and nulls the
handle. -/
theorem deleteAnalyses_completed (fuel : Nat) (v : Var) (σ : State) (p : Addr)
    (l : List Ptr) (hv : σ.vars v = some p) (hl : σ.lists p = some l)
    (hfuel : l.length ≤ fuel) (hS : (sweep p l (entry σ p)).fault = none) :
    deleteAnalyses fuel v σ
      = nullHandle v
          { sweep p l (entry σ p) with
            state := { (sweep p l (entry σ p)).state with lists := free σ.lists p },
            trace := (sweep p l (entry σ p)).trace ++ [Effect.destroyList (some p)] } := by
  have hv2 : (sweep p l (entry σ p)).state.vars v = some p := by rw [sweep_vars]; exact hv
  have hl2 : (sweep p l (entry σ p)).state.lists = σ.lists := by rw [sweep_lists]; rfl
  have hd : deleteList v (sweep p l (entry σ p))
      = { sweep p l (entry σ p) with
          state := { (sweep p l (entry σ p)).state with lists := free σ.lists p },
          trace := (sweep p l (entry σ p)).trace ++ [Effect.destroyList (some p)] } := by
    simp only [deleteList, hv2, hl2, hl]
  rw [deleteAnalyses_unfold fuel v σ p l hv hl, walk_entry fuel v σ p l hv hl hfuel, hd]
  simp only [hS]

/-- On a null handle the routine stops at `analyses->begin()`. -/
theorem deleteAnalyses_null (fuel : Nat) (v : Var) (σ : State) (hv : σ.vars v = none) :
    deleteAnalyses fuel v σ = { Machine.init σ with fault := some Fault.nullDeref } := by
  unfold deleteAnalyses
  simp [derefHandle, Machine.init, hv]

/-- With fuel for fewer iterations than the list has elements the run does not
return. -/
theorem deleteAnalyses_short (fuel : Nat) (v : Var) (σ : State) (p : Addr) (l : List Ptr)
    (hv : σ.vars v = some p) (hl : σ.lists p = some l) (hfuel : fuel < l.length) :
    (deleteAnalyses fuel v σ).fault ≠ none ∧
    ((sweep p (l.take fuel) (entry σ p)).fault = none →
      (deleteAnalyses fuel v σ).fault = some Fault.outOfFuel) := by
  have hw := walk_eq_sweep_take fuel v p l (entry σ p) hv hl rfl (Nat.zero_le _)
    (by show fuel < l.length - 0; omega)
  have hw2 : walk fuel v (entry σ p)
      = match (sweep p (l.take fuel) (entry σ p)).fault with
        | some _ => sweep p (l.take fuel) (entry σ p)
        | none => { sweep p (l.take fuel) (entry σ p) with fault := some Fault.outOfFuel } := by
    simpa [entry, Machine.init] using hw
  rw [deleteAnalyses_unfold fuel v σ p l hv hl, hw2]
  cases hs : (sweep p (l.take fuel) (entry σ p)).fault with
  | some f => simp [hs]
  | none => simp

/-- Summary of a run on a Live handle whose elements are pairwise distinct and
live, with fuel for the whole list. -/
theorem deleteAnalyses_good (fuel : Nat) (v : Var) (σ : State) (p : Addr) (l : List Ptr)
    (hv : σ.vars v = some p) (hl : σ.lists p = some l) (hfuel : l.length ≤ fuel)
    (hnd : (l.filterMap id).Nodup)
    (hlive : ∀ a, some a ∈ l → (σ.objs a).isSome = true) :
    (deleteAnalyses fuel v σ).fault = none ∧
    (deleteAnalyses fuel v σ).invalidFrees = [] ∧
    (deleteAnalyses fuel v σ).trace
      = l.map Effect.destroyAnalysis ++ [Effect.destroyList (some p), Effect.setHandle v none] ∧
    (deleteAnalyses fuel v σ).it = l.length ∧
    (deleteAnalyses fuel v σ).iters = l.length ∧
    (deleteAnalyses fuel v σ).state.vars = assign σ.vars v none ∧
    (deleteAnalyses fuel v σ).state.lists = free σ.lists p ∧
    (∀ x, (deleteAnalyses fuel v σ).state.objs x = if some x ∈ l then none else σ.objs x) ∧
    (deleteAnalyses fuel v σ).state = replay (deleteAnalyses fuel v σ).trace σ := by
  obtain ⟨g1, g2, g3, g4, g5, g6, g7⟩ := sweep_good p l (entry σ p) rfl hnd hlive
  have hv2 : (sweep p l (entry σ p)).state.vars = σ.vars := by rw [sweep_vars]; rfl
  have hl2 : (sweep p l (entry σ p)).state.lists = σ.lists := by rw [sweep_lists]; rfl
  have g3b : (sweep p l (entry σ p)).trace = l.map Effect.destroyAnalysis := by
    rw [g3]; simp [entry, Machine.init]
  have g6b : (sweep p l (entry σ p)).state = replay (l.map Effect.destroyAnalysis) σ := g6
  have g4b : (sweep p l (entry σ p)).it = l.length := by
    rw [g4]; simp [entry, Machine.init]
  have g5b : (sweep p l (entry σ p)).iters = l.length := by
    rw [g5]; simp [entry, Machine.init]
  have hst : ({ (sweep p l (entry σ p)).state with
        lists := free σ.lists p,
        vars := assign (sweep p l (entry σ p)).state.vars v none } : State)
      = (Effect.setHandle v none).run
          ((Effect.destroyList (some p)).run (sweep p l (entry σ p)).state) := by
    simp only [Effect.run, hl2]
  rw [deleteAnalyses_completed fuel v σ p l hv hl hfuel g1]
  refine ⟨g1, g2, ?_, g4b, g5b, ?_, rfl, ?_, ?_⟩
  · simp [nullHandle, g3b]
  · simp [nullHandle, hv2]
  · intro x
    simpa [nullHandle, entry, Machine.init] using g7 x
  · show ({ (sweep p l (entry σ p)).state with
        lists := free σ.lists p,
        vars := assign (sweep p l (entry σ p)).state.vars v none } : State)
      = replay (((sweep p l (entry σ p)).trace ++ [Effect.destroyList (some p)])
          ++ [Effect.setHandle v none]) σ
    rw [hst, g3b, g6b]
    simp only [replay, List.foldl_append, List.foldl_cons, List.foldl_nil]

/-- A run on a Live handle that returned had fuel for the whole list, and the
non-null elements of the list were pairwise distinct and live. -/
theorem deleteAnalyses_returned (fuel : Nat) (v : Var) (σ : State) (p : Addr) (l : List Ptr)
    (hv : σ.vars v = some p) (hl : σ.lists p = some l)
    (hret : (deleteAnalyses fuel v σ).fault = none) :
    l.length ≤ fuel ∧ (l.filterMap id).Nodup ∧
    ∀ a, some a ∈ l → (σ.objs a).isSome = true := by
  have hfuel : l.length ≤ fuel := by
    by_contra h
    exact (deleteAnalyses_short fuel v σ p l hv hl (by omega)).1 hret
  refine ⟨hfuel, ?_⟩
  cases hS : (sweep p l (entry σ p)).fault with
  | some f =>
    rw [deleteAnalyses_stopped fuel v σ p l hv hl hfuel f hS, hS] at hret
    exact Option.noConfusion hret
  | none => exact (sweep_returned p l (entry σ p) hS).2

/-- Only a run on a Live handle returns. -/
theorem deleteAnalyses_returned_live (fuel : Nat) (v : Var) (σ : State)
    (hret : (deleteAnalyses fuel v σ).fault = none) : Live σ v := by
  cases hv : σ.vars v with
  | none =>
    rw [deleteAnalyses_null fuel v σ hv] at hret
    exact Option.noConfusion hret
  | some p =>
    cases hl : σ.lists p with
    | none =>
      have : (deleteAnalyses fuel v σ).fault = some Fault.danglingDeref := by
        unfold deleteAnalyses
        simp [derefHandle, Machine.init, hv, hl]
      rw [this] at hret
      exact Option.noConfusion hret
    | some l => exact ⟨p, l, hv, hl⟩

theorem count_some_eq_count_filterMap (l : List Ptr) (a : Addr) :
    l.count (some a) = (l.filterMap id).count a := by
  induction l with
  | nil => rfl
  | cons b rest ih =>
    cases b with
    | none => simp [ih]
    | some y =>
      by_cases h : y = a
      · subst h; simp [ih]
      · have h2 : ¬ some y = some a := fun e => h (Option.some.inj e)
        simp [List.count_cons, h, ih]

theorem count_destroyAnalysis_map (l : List Ptr) (a : Ptr) :
    (l.map Effect.destroyAnalysis).count (Effect.destroyAnalysis a) = l.count a := by
  induction l with
  | nil => rfl
  | cons b rest ih =>
    by_cases h : b = a
    · subst h; simp [ih]
    · have h2 : ¬ Effect.destroyAnalysis b = Effect.destroyAnalysis a :=
        fun e => h (Effect.destroyAnalysis.inj e)
      simp [List.count_cons, h, h2, ih]

theorem releases_of_released (fuels : List Nat) (v : Var) :
    ∀ σ : State, σ.vars v = none → releases fuels v σ = σ := by
  induction fuels with
  | nil => intro σ _; rfl
  | cons f rest ih =>
    intro σ h
    have hs : (deleteAnalyses f v σ).state = σ := by rw [deleteAnalyses_null f v σ h]; rfl
    show releases rest v (deleteAnalyses f v σ).state = σ
    rw [hs]
    exact ih σ h

theorem not_live_of_released (σ : State) (v : Var) (h : σ.vars v = none) : ¬ Live σ v := by
  rintro ⟨p, l, hp, _⟩
  rw [h] at hp
  exact Option.noConfusion hp

/-! ## The claims -/

/-- C1. For every Live handle (variable `v` points to the live list `l`, of any
length), whenever `deleteAnalyses` returns, the caller's handle variable holds
the null sentinel. It does return when there is fuel for `l.length` iterations
and the non-null elements of `l` are pairwise distinct live objects, the empty
list included. -/
theorem deleteAnalyses_nulls_handle (fuel : Nat) (v : Var) (σ : State) (p : Addr)
    (l : List Ptr) (hv : σ.vars v = some p) (hl : σ.lists p = some l) :
    ((deleteAnalyses fuel v σ).fault = none → (deleteAnalyses fuel v σ).state.vars v = none) ∧
    (l.length ≤ fuel → (l.filterMap id).Nodup →
      (∀ a, some a ∈ l → (σ.objs a).isSome = true) →
      (deleteAnalyses fuel v σ).fault = none ∧
      (deleteAnalyses fuel v σ).state.vars v = none) := by
  have key : l.length ≤ fuel → (l.filterMap id).Nodup →
      (∀ a, some a ∈ l → (σ.objs a).isSome = true) →
      (deleteAnalyses fuel v σ).fault = none ∧
      (deleteAnalyses fuel v σ).state.vars v = none := by
    intro hfuel hnd hlive
    obtain ⟨g1, _, _, _, _, g6, _⟩ := deleteAnalyses_good fuel v σ p l hv hl hfuel hnd hlive
    refine ⟨g1, ?_⟩
    rw [g6]
    simp [assign]
  refine ⟨fun hret => ?_, key⟩
  obtain ⟨hfuel, hnd, hlive⟩ := deleteAnalyses_returned fuel v σ p l hv hl hret
  exact (key hfuel hnd hlive).2

theorem deleteAnalyses_nulls_handle_witness :
    sampleState.vars 0 = some 10 ∧ sampleState.lists 10 = some [some 1, none, some 2] ∧
    ((deleteAnalyses 3 0 sampleState).fault = none ∧
      (deleteAnalyses 3 0 sampleState).state.vars 0 = none) ∧
    (deleteAnalyses 0 2 sampleState).state.vars 2 = none :=
  ⟨rfl, rfl,
    (deleteAnalyses_nulls_handle 3 0 sampleState 10 [some 1, none, some 2] rfl rfl).2
      (by decide) (by decide)
      (by
        intro a ha
        have h : a = 1 ∨ a = 2 := by simpa using ha
        rcases h with h | h <;> subst h <;> rfl),
    (deleteAnalyses_nulls_handle 0 2 sampleState 12 [] rfl rfl).1 rfl⟩

/-- C2, refuted as stated. Variable 1 of the sample memory is a Live handle to
the list `[1, 1]`, both elements pointing to the live Analysis at 1. The run of
`deleteAnalyses` is stopped by the second `delete *it++`, an invalid free, before
`delete analyses`: the container at 11 is still live afterwards. -/
theorem duplicate_element_keeps_container :
    sampleState.vars 1 = some 11 ∧ sampleState.lists 11 = some [some 1, some 1] ∧
    (sampleState.objs 1).isSome = true ∧
    (deleteAnalyses 2 1 sampleState).fault = some Fault.invalidFree ∧
    (deleteAnalyses 2 1 sampleState).state.lists 11 = some [some 1, some 1] ∧
    ¬ (deleteAnalyses 2 1 sampleState).state.lists 11 = none := by
  refine ⟨rfl, rfl, rfl, rfl, rfl, ?_⟩
  intro h
  exact Option.noConfusion (h.symm.trans
    (rfl : (deleteAnalyses 2 1 sampleState).state.lists 11 = some [some 1, some 1]))

/-- C2, amended. For a Live handle whose list holds live Analysis objects, the
non-null ones pairwise distinct, `deleteAnalyses` returns, every Analysis that
was an element of the list has been destroyed (a destroy effect for it is in the
trace) and is not live in the resulting heap, and the container itself has been
destroyed and is not live either. -/
theorem deleteAnalyses_destroys_all (fuel : Nat) (v : Var) (σ : State) (p : Addr)
    (l : List Ptr) (hv : σ.vars v = some p) (hl : σ.lists p = some l)
    (hfuel : l.length ≤ fuel) (hnd : (l.filterMap id).Nodup)
    (hlive : ∀ a, some a ∈ l → (σ.objs a).isSome = true) :
    (deleteAnalyses fuel v σ).fault = none ∧
    (∀ a, some a ∈ l →
      (σ.objs a).isSome = true ∧
      Effect.destroyAnalysis (some a) ∈ (deleteAnalyses fuel v σ).trace ∧
      (deleteAnalyses fuel v σ).state.objs a = none) ∧
    Effect.destroyList (some p) ∈ (deleteAnalyses fuel v σ).trace ∧
    (deleteAnalyses fuel v σ).state.lists p = none := by
  obtain ⟨g1, _, g3, _, _, _, g7, g8, _⟩ :=
    deleteAnalyses_good fuel v σ p l hv hl hfuel hnd hlive
  refine ⟨g1, ?_, ?_, ?_⟩
  · intro a ha
    refine ⟨hlive a ha, ?_, ?_⟩
    · rw [g3]
      exact List.mem_append_left _ (List.mem_map_of_mem _ ha)
    · rw [g8]
      simp [ha]
  · rw [g3]
    simp
  · rw [g7]
    simp [free]

theorem deleteAnalyses_destroys_all_witness :
    (deleteAnalyses 3 0 sampleState).fault = none ∧
    (∀ a, some a ∈ [some 1, none, some 2] →
      (sampleState.objs a).isSome = true ∧
      Effect.destroyAnalysis (some a) ∈ (deleteAnalyses 3 0 sampleState).trace ∧
      (deleteAnalyses 3 0 sampleState).state.objs a = none) ∧
    Effect.destroyList (some 10) ∈ (deleteAnalyses 3 0 sampleState).trace ∧
    (deleteAnalyses 3 0 sampleState).state.lists 10 = none :=
  deleteAnalyses_destroys_all 3 0 sampleState 10 [some 1, none, some 2] rfl rfl (by decide)
    (by decide)
    (by
      intro a ha
      have h : a = 1 ∨ a = 2 := by simpa using ha
      rcases h with h | h <;> subst h <;> rfl)

/-- C3, refuted as stated. Variable 0 of the sample memory is released once with
`deleteAnalyses`, which leaves the null sentinel in it; the second call of
`deleteAnalyses` on that variable does not return normally: it stops with a null
dereference at `analyses->begin()`. -/
theorem second_release_faults :
    (deleteAnalyses 3 0 sampleState).fault = none ∧
    (deleteAnalyses 3 0 sampleState).state.vars 0 = none ∧
    (deleteAnalyses 3 0 (deleteAnalyses 3 0 sampleState).state).fault = some Fault.nullDeref ∧
    ¬ (deleteAnalyses 3 0 (deleteAnalyses 3 0 sampleState).state).fault = none := by
  refine ⟨rfl, rfl, rfl, ?_⟩
  intro h
  exact Option.noConfusion (h.symm.trans (rfl : (deleteAnalyses 3 0
    (deleteAnalyses 3 0 sampleState).state).fault = some Fault.nullDeref))

/-- C3, amended. After a release that returned, the handle variable holds the
null sentinel, and a second `deleteAnalyses` on the same variable stops with a
null-dereference fault at its first statement, for every fuel: before the fault
it reads nothing through the handle, performs no effect (no destroy, no write)
and no invalid free, and the memory state, handle included, is the one the
single release left. -/
theorem release_after_release (fuel fuel2 : Nat) (v : Var) (σ : State)
    (hret : (deleteAnalyses fuel v σ).fault = none) :
    (deleteAnalyses fuel v σ).state.vars v = none ∧
    (deleteAnalyses fuel2 v (deleteAnalyses fuel v σ).state).fault = some Fault.nullDeref ∧
    (deleteAnalyses fuel2 v (deleteAnalyses fuel v σ).state).derefs = [] ∧
    (deleteAnalyses fuel2 v (deleteAnalyses fuel v σ).state).trace = [] ∧
    (deleteAnalyses fuel2 v (deleteAnalyses fuel v σ).state).invalidFrees = [] ∧
    (deleteAnalyses fuel2 v (deleteAnalyses fuel v σ).state).state
      = (deleteAnalyses fuel v σ).state := by
  obtain ⟨p, l, hv, hl⟩ := deleteAnalyses_returned_live fuel v σ hret
  obtain ⟨hfuel, hnd, hlive⟩ := deleteAnalyses_returned fuel v σ p l hv hl hret
  obtain ⟨_, _, _, _, _, g6, _⟩ := deleteAnalyses_good fuel v σ p l hv hl hfuel hnd hlive
  have hnull : (deleteAnalyses fuel v σ).state.vars v = none := by
    rw [g6]
    simp [assign]
  refine ⟨hnull, ?_⟩
  rw [deleteAnalyses_null fuel2 v _ hnull]
  exact ⟨rfl, rfl, rfl, rfl, rfl⟩

theorem release_after_release_witness :
    (deleteAnalyses 3 0 sampleState).fault = none ∧
    (deleteAnalyses 3 0 sampleState).state.vars 0 = none ∧
    (deleteAnalyses 5 0 (deleteAnalyses 3 0 sampleState).state).fault = some Fault.nullDeref ∧
    (deleteAnalyses 5 0 (deleteAnalyses 3 0 sampleState).state).derefs = [] ∧
    (deleteAnalyses 5 0 (deleteAnalyses 3 0 sampleState).state).trace = [] ∧
    (deleteAnalyses 5 0 (deleteAnalyses 3 0 sampleState).state).invalidFrees = [] ∧
    (deleteAnalyses 5 0 (deleteAnalyses 3 0 sampleState).state).state
      = (deleteAnalyses 3 0 sampleState).state :=
  ⟨rfl, release_after_release 3 5 0 sampleState rfl⟩

/-- C4, refuted as stated. On the Live handle to the list `[1, 1]` the effects of
`deleteAnalyses` are the two element destroys and nothing more: the second one is
an invalid free that stops the run, so the container is not destroyed and the
handle is not nulled. -/
theorem duplicate_element_stops_effects :
    sampleState.vars 1 = some 11 ∧ sampleState.lists 11 = some [some 1, some 1] ∧
    (deleteAnalyses 2 1 sampleState).fault = some Fault.invalidFree ∧
    (deleteAnalyses 2 1 sampleState).trace
      = [Effect.destroyAnalysis (some 1), Effect.destroyAnalysis (some 1)] ∧
    (deleteAnalyses 2 1 sampleState).trace
      ≠ [Effect.destroyAnalysis (some 1), Effect.destroyAnalysis (some 1),
         Effect.destroyList (some 11), Effect.setHandle 1 none] ∧
    (deleteAnalyses 2 1 sampleState).state.vars 1 = some 11 := by
  refine ⟨rfl, rfl, rfl, rfl, ?_, rfl⟩
  decide

/-- C4, amended. For a Live handle whose list is `l = [a1, ..., an]`, the non-null
elements pairwise distinct live Analysis objects, `deleteAnalyses` returns and
the effects it performed are exactly: destroy `a1`, ..., destroy `an` in list
order, then destroy the container, then set the handle to the sentinel. The
memory state after the call is the result of these effects, performed in this
order on the state before the call; in it the container is not live and the
handle is null. For the empty list the effects are: destroy the container, null
the handle. -/
theorem deleteAnalyses_effect_order (fuel : Nat) (v : Var) (σ : State) (p : Addr)
    (l : List Ptr) (hv : σ.vars v = some p) (hl : σ.lists p = some l)
    (hfuel : l.length ≤ fuel) (hnd : (l.filterMap id).Nodup)
    (hlive : ∀ a, some a ∈ l → (σ.objs a).isSome = true) :
    (deleteAnalyses fuel v σ).fault = none ∧
    (deleteAnalyses fuel v σ).trace
      = l.map Effect.destroyAnalysis ++ [Effect.destroyList (some p), Effect.setHandle v none] ∧
    (deleteAnalyses fuel v σ).state
      = replay (l.map Effect.destroyAnalysis
          ++ [Effect.destroyList (some p), Effect.setHandle v none]) σ ∧
    (deleteAnalyses fuel v σ).state.lists p = none ∧
    (deleteAnalyses fuel v σ).state.vars v = none ∧
    (l = [] → (deleteAnalyses fuel v σ).trace
      = [Effect.destroyList (some p), Effect.setHandle v none]) := by
  obtain ⟨g1, _, g3, _, _, g6, g7, _, g9⟩ :=
    deleteAnalyses_good fuel v σ p l hv hl hfuel hnd hlive
  refine ⟨g1, g3, ?_, ?_, ?_, ?_⟩
  · rw [← g3]; exact g9
  · rw [g7]; simp [free]
  · rw [g6]; simp [assign]
  · intro hnil
    rw [g3, hnil]
    rfl

theorem deleteAnalyses_effect_order_witness :
    (deleteAnalyses 4 0 sampleState).trace
      = [Effect.destroyAnalysis (some 1), Effect.destroyAnalysis none,
         Effect.destroyAnalysis (some 2), Effect.destroyList (some 10),
         Effect.setHandle 0 none] ∧
    (deleteAnalyses 4 0 sampleState).state.vars 0 = none ∧
    (deleteAnalyses 0 2 sampleState).trace
      = [Effect.destroyList (some 12), Effect.setHandle 2 none] :=
  ⟨(deleteAnalyses_effect_order 4 0 sampleState 10 [some 1, none, some 2] rfl rfl
      (by decide) (by decide)
      (by
        intro a ha
        have h : a = 1 ∨ a = 2 := by simpa using ha
        rcases h with h | h <;> subst h <;> rfl)).2.1,
   (deleteAnalyses_effect_order 4 0 sampleState 10 [some 1, none, some 2] rfl rfl
      (by decide) (by decide)
      (by
        intro a ha
        have h : a = 1 ∨ a = 2 := by simpa using ha
        rcases h with h | h <;> subst h <;> rfl)).2.2.2.2.1,
   (deleteAnalyses_effect_order 0 2 sampleState 12 [] rfl rfl (by decide) (by decide)
      (by intro a ha; simp at ha)).2.2.2.2.2 rfl⟩

/-- C5, refuted as stated. Variable 1 of the sample memory is Live (it points to
the live list `[1, 1]`); the release step on it is stopped by the invalid free of
the second element and leaves the handle as it was: still Live, not Released. -/
theorem duplicate_element_step_stays_live :
    Live sampleState 1 ∧
    (deleteAnalyses 2 1 sampleState).fault = some Fault.invalidFree ∧
    Live (deleteAnalyses 2 1 sampleState).state 1 ∧
    ¬ Released (deleteAnalyses 2 1 sampleState).state 1 := by
  refine ⟨⟨11, [some 1, some 1], rfl, rfl⟩, rfl, ⟨11, [some 1, some 1], rfl, rfl⟩, ?_⟩
  intro h
  exact Option.noConfusion (h.symm.trans
    (rfl : (deleteAnalyses 2 1 sampleState).state.vars 1 = some 11))

/-- C5, amended. The handle is a two-state machine whose only step is release
(`deleteAnalyses`). A step from Live that returns ends in Released, and the step
returns whenever the fuel covers the list and the non-null elements of the list
are pairwise distinct live Analysis objects. Released is terminal: after any
sequence of release steps from a Released handle the handle is still Released and
is not Live. -/
theorem handle_state_machine (v : Var) (σ : State) :
    (Live σ v → ∀ fuel, (deleteAnalyses fuel v σ).fault = none →
      Released (deleteAnalyses fuel v σ).state v ∧
      ¬ Live (deleteAnalyses fuel v σ).state v) ∧
    (∀ p l, σ.vars v = some p → σ.lists p = some l → (l.filterMap id).Nodup →
      (∀ a, some a ∈ l → (σ.objs a).isSome = true) → ∀ fuel, l.length ≤ fuel →
      (deleteAnalyses fuel v σ).fault = none ∧
      Released (deleteAnalyses fuel v σ).state v ∧
      ¬ Live (deleteAnalyses fuel v σ).state v) ∧
    (Released σ v → ∀ fuels : List Nat,
      Released (releases fuels v σ) v ∧ ¬ Live (releases fuels v σ) v) := by
  have good : ∀ p l, σ.vars v = some p → σ.lists p = some l → (l.filterMap id).Nodup →
      (∀ a, some a ∈ l → (σ.objs a).isSome = true) → ∀ fuel, l.length ≤ fuel →
      (deleteAnalyses fuel v σ).fault = none ∧
      Released (deleteAnalyses fuel v σ).state v ∧
      ¬ Live (deleteAnalyses fuel v σ).state v := by
    intro p l hv hl hnd hlive fuel hfuel
    obtain ⟨g1, _, _, _, _, g6, _⟩ := deleteAnalyses_good fuel v σ p l hv hl hfuel hnd hlive
    have hnull : (deleteAnalyses fuel v σ).state.vars v = none := by
      rw [g6]
      simp [assign]
    exact ⟨g1, hnull, not_live_of_released _ v hnull⟩
  refine ⟨?_, good, ?_⟩
  · rintro ⟨p, l, hv, hl⟩ fuel hret
    obtain ⟨hfuel, hnd, hlive⟩ := deleteAnalyses_returned fuel v σ p l hv hl hret
    exact (good p l hv hl hnd hlive fuel hfuel).2
  · intro h fuels
    have hr : releases fuels v σ = σ := releases_of_released fuels v σ h
    rw [hr]
    exact ⟨h, not_live_of_released σ v h⟩

theorem handle_state_machine_witness :
    Live sampleState 0 ∧
    ((deleteAnalyses 3 0 sampleState).fault = none ∧
      Released (deleteAnalyses 3 0 sampleState).state 0 ∧
      ¬ Live (deleteAnalyses 3 0 sampleState).state 0) ∧
    (Released (deleteAnalyses 8 2 sampleState).state 2 ∧
      ¬ Live (deleteAnalyses 8 2 sampleState).state 2) ∧
    Released sampleState 5 ∧
    Released (releases [3, 0, 7] 5 sampleState) 5 ∧
    ¬ Live (releases [3, 0, 7] 5 sampleState) 5 :=
  ⟨⟨10, [some 1, none, some 2], rfl, rfl⟩,
   (handle_state_machine 0 sampleState).2.1 10 [some 1, none, some 2] rfl rfl (by decide)
     (by
       intro a ha
       have h : a = 1 ∨ a = 2 := by simpa using ha
       rcases h with h | h <;> subst h <;> rfl) 3 (by decide),
   (handle_state_machine 2 sampleState).1 ⟨12, [], rfl, rfl⟩ 8 rfl,
   rfl,
   (handle_state_machine 5 sampleState).2.2 rfl [3, 0, 7]⟩

/-- C6. `deleteAnalyses` on a handle variable that holds the null sentinel
(Released, or never initialised to a list) is not a silent use after free: the
run ends in the explicit fault `nullDeref`, with the memory state unchanged, and
no container was read through the handle and nothing was destroyed or freed. -/
theorem release_on_null_handle_safe (fuel : Nat) (v : Var) (σ : State)
    (h : Released σ v) :
    ((deleteAnalyses fuel v σ).fault = some Fault.nullDeref ∨
      (deleteAnalyses fuel v σ).state = σ) ∧
    (deleteAnalyses fuel v σ).fault = some Fault.nullDeref ∧
    (deleteAnalyses fuel v σ).state = σ ∧
    (deleteAnalyses fuel v σ).derefs = [] ∧
    (deleteAnalyses fuel v σ).trace = [] ∧
    (deleteAnalyses fuel v σ).invalidFrees = [] := by
  rw [deleteAnalyses_null fuel v σ h]
  exact ⟨Or.inl rfl, rfl, rfl, rfl, rfl, rfl⟩

theorem release_on_null_handle_safe_witness :
    Released sampleState 5 ∧
    (deleteAnalyses 2 5 sampleState).fault = some Fault.nullDeref ∧
    (deleteAnalyses 2 5 sampleState).state = sampleState ∧
    (deleteAnalyses 2 5 sampleState).derefs = [] ∧
    (deleteAnalyses 2 5 sampleState).trace = [] ∧
    (deleteAnalyses 2 5 sampleState).invalidFrees = [] :=
  ⟨rfl, (release_on_null_handle_safe 2 5 sampleState rfl).2⟩

/-- C8. For a Live handle with list `l`: if the non-null elements of `l` are
pairwise distinct and point to live Analysis objects, `deleteAnalyses` returns
without fault and without invalid free, and each such object is destroyed exactly
once and is not live afterwards (null elements cost one harmless destroy each).
The routine does no de-duplication: when a non-null pointer occurs a second time
in `l`, after pairwise distinct live elements, the routine destroys that object
twice, the second destroy is a double free, and the run stops there. -/
theorem deleteAnalyses_exactly_once (fuel : Nat) (v : Var) (σ : State) (p : Addr)
    (l : List Ptr) (hv : σ.vars v = some p) (hl : σ.lists p = some l)
    (hfuel : l.length ≤ fuel) :
    ((l.filterMap id).Nodup → (∀ a, some a ∈ l → (σ.objs a).isSome = true) →
      (deleteAnalyses fuel v σ).fault = none ∧
      (deleteAnalyses fuel v σ).invalidFrees = [] ∧
      ∀ a, some a ∈ l →
        (deleteAnalyses fuel v σ).trace.count (Effect.destroyAnalysis (some a)) = 1 ∧
        (deleteAnalyses fuel v σ).state.objs a = none) ∧
    (∀ (pre : List Ptr) (a : Addr) (rest : List Ptr), l = pre ++ some a :: rest →
      (pre.filterMap id).Nodup → (∀ b, some b ∈ pre → (σ.objs b).isSome = true) →
      some a ∈ pre →
      (deleteAnalyses fuel v σ).trace.count (Effect.destroyAnalysis (some a)) = 2 ∧
      (deleteAnalyses fuel v σ).invalidFrees = [Effect.destroyAnalysis (some a)] ∧
      (deleteAnalyses fuel v σ).fault = some Fault.invalidFree) := by
  constructor
  · intro hnd hlive
    obtain ⟨g1, g2, g3, _, _, _, _, g8, _⟩ :=
      deleteAnalyses_good fuel v σ p l hv hl hfuel hnd hlive
    refine ⟨g1, g2, ?_⟩
    intro a ha
    constructor
    · rw [g3, List.count_append, count_destroyAnalysis_map, count_some_eq_count_filterMap]
      have h1 : (l.filterMap id).count a = 1 := by
        apply List.count_eq_one_of_mem hnd
        rw [List.mem_filterMap]
        exact ⟨some a, ha, rfl⟩
      rw [h1]
      simp [List.count_cons]
    · rw [g8]
      simp [ha]
  · intro pre a rest hsplit hnd hlive hmem
    subst hsplit
    obtain ⟨r1, r2, r3, _⟩ :=
      sweep_first_repeat p a rest pre (entry σ p) rfl hnd hlive (Or.inl hmem)
    rw [deleteAnalyses_stopped fuel v σ p _ hv hl hfuel Fault.invalidFree r1]
    refine ⟨?_, ?_, r1⟩
    · rw [r2]
      have h0 : (entry σ p).trace = [] := rfl
      rw [h0, List.nil_append, count_destroyAnalysis_map, List.count_append,
        count_some_eq_count_filterMap]
      have h1 : (pre.filterMap id).count a = 1 := by
        apply List.count_eq_one_of_mem hnd
        rw [List.mem_filterMap]
        exact ⟨some a, hmem, rfl⟩
      rw [h1]
      simp
    · rw [r3]
      rfl

theorem deleteAnalyses_exactly_once_witness :
    ((deleteAnalyses 3 0 sampleState).fault = none ∧
      (deleteAnalyses 3 0 sampleState).invalidFrees = [] ∧
      ∀ a, some a ∈ [some 1, none, some 2] →
        (deleteAnalyses 3 0 sampleState).trace.count (Effect.destroyAnalysis (some a)) = 1 ∧
        (deleteAnalyses 3 0 sampleState).state.objs a = none) ∧
    ((deleteAnalyses 2 1 sampleState).trace.count (Effect.destroyAnalysis (some 1)) = 2 ∧
      (deleteAnalyses 2 1 sampleState).invalidFrees = [Effect.destroyAnalysis (some 1)] ∧
      (deleteAnalyses 2 1 sampleState).fault = some Fault.invalidFree) :=
  ⟨(deleteAnalyses_exactly_once 3 0 sampleState 10 [some 1, none, some 2] rfl rfl
      (by decide)).1 (by decide)
      (by
        intro a ha
        have h : a = 1 ∨ a = 2 := by simpa using ha
        rcases h with h | h <;> subst h <;> rfl),
   (deleteAnalyses_exactly_once 2 1 sampleState 11 [some 1, some 1] rfl rfl
      (by decide)).2 [some 1] 1 [] rfl (by decide)
      (by
        intro b hb
        have h : b = 1 := by simpa using hb
        subst h; rfl)
      (by decide)⟩

/-- C10. Frame of `deleteAnalyses` on a Live handle `v` pointing to the container
`p` with list `l`: whenever the call returns, an Analysis address that is not an
element of `l` has the same liveness and the same contents as before the call,
every container other than `p` is unchanged, and every handle variable other than
`v` keeps its value (a second handle to the same container is not nulled). The
call returns when the fuel covers the list and the non-null elements are pairwise
distinct live objects. -/
theorem deleteAnalyses_frame (fuel : Nat) (v : Var) (σ : State) (p : Addr)
    (l : List Ptr) (hv : σ.vars v = some p) (hl : σ.lists p = some l) :
    ((deleteAnalyses fuel v σ).fault = none →
      (∀ a, some a ∉ l → (deleteAnalyses fuel v σ).state.objs a = σ.objs a) ∧
      (∀ q, q ≠ p → (deleteAnalyses fuel v σ).state.lists q = σ.lists q) ∧
      (∀ w, w ≠ v → (deleteAnalyses fuel v σ).state.vars w = σ.vars w)) ∧
    (l.length ≤ fuel → (l.filterMap id).Nodup →
      (∀ a, some a ∈ l → (σ.objs a).isSome = true) →
      (deleteAnalyses fuel v σ).fault = none) := by
  constructor
  · intro hret
    obtain ⟨hfuel, hnd, hlive⟩ := deleteAnalyses_returned fuel v σ p l hv hl hret
    obtain ⟨_, _, _, _, _, g6, g7, g8, _⟩ :=
      deleteAnalyses_good fuel v σ p l hv hl hfuel hnd hlive
    refine ⟨?_, ?_, ?_⟩
    · intro a ha
      rw [g8]
      simp [ha]
    · intro q hq
      rw [g7]
      simp [free, hq]
    · intro w hw
      rw [g6]
      simp [assign, hw]
  · intro hfuel hnd hlive
    exact (deleteAnalyses_good fuel v σ p l hv hl hfuel hnd hlive).1

theorem deleteAnalyses_frame_witness :
    (deleteAnalyses 3 0 sampleState).fault = none ∧
    (deleteAnalyses 3 0 sampleState).state.objs 7
      = some [("BASEFORM", "talo"), ("CLASS", "nimisana")] ∧
    (deleteAnalyses 3 0 sampleState).state.lists 11 = some [some 1, some 1] ∧
    (deleteAnalyses 3 0 sampleState).state.vars 3 = some 10 :=
  ⟨(deleteAnalyses_frame 3 0 sampleState 10 [some 1, none, some 2] rfl rfl).2 (by decide)
      (by decide)
      (by
        intro a ha
        have h : a = 1 ∨ a = 2 := by simpa using ha
        rcases h with h | h <;> subst h <;> rfl),
   ((deleteAnalyses_frame 3 0 sampleState 10 [some 1, none, some 2] rfl rfl).1 rfl).1 7
      (by decide),
   ((deleteAnalyses_frame 3 0 sampleState 10 [some 1, none, some 2] rfl rfl).1 rfl).2.1 11
      (by decide),
   ((deleteAnalyses_frame 3 0 sampleState 10 [some 1, none, some 2] rfl rfl).1 rfl).2.2 3
      (by decide)⟩

/-- Invariants of the allocation loop of `analyze`, started at store `s` with the
pointers `ptrs` already collected, all of them below the allocation cursor. -/
theorem pushNew_foldl (as : List Analysis) :
    ∀ (s : Store) (ptrs : List Ptr), (∀ q ∈ ptrs, ∃ x, q = some x ∧ x < s.brk) →
      s.brk ≤ (as.foldl pushNew (s, ptrs)).1.brk ∧
      (∀ q ∈ (as.foldl pushNew (s, ptrs)).2,
        ∃ x, q = some x ∧ x < (as.foldl pushNew (s, ptrs)).1.brk) ∧
      (∀ q ∈ (as.foldl pushNew (s, ptrs)).2, q ∈ ptrs ∨ ∃ x, q = some x ∧ s.brk ≤ x) ∧
      (∀ x, x < s.brk → (as.foldl pushNew (s, ptrs)).1.mem.objs x = s.mem.objs x) ∧
      (as.foldl pushNew (s, ptrs)).1.mem.lists = s.mem.lists ∧
      (as.foldl pushNew (s, ptrs)).1.mem.vars = s.mem.vars ∧
      (as.foldl pushNew (s, ptrs)).2.map
          (fun a => a.bind (as.foldl pushNew (s, ptrs)).1.mem.objs)
        = ptrs.map (fun a => a.bind s.mem.objs) ++ as.map some := by
  induction as with
  | nil =>
    intro s ptrs h
    refine ⟨le_refl _, h, fun q hq => Or.inl hq, fun _ _ => rfl, rfl, rfl, by simp⟩
  | cons a rest ih =>
    intro s ptrs h
    have hinv : ∀ q ∈ (pushNew (s, ptrs) a).2,
        ∃ x, q = some x ∧ x < (pushNew (s, ptrs) a).1.brk := by
      intro q hq
      rcases List.mem_append.mp hq with hq | hq
      · obtain ⟨x, hx, hlt⟩ := h q hq
        exact ⟨x, hx, Nat.lt_succ_of_lt hlt⟩
      · exact ⟨s.brk, by simpa using hq, Nat.lt_succ_self _⟩
    obtain ⟨h1, h2, h3, h4, h5, h6, h7⟩ :=
      ih (pushNew (s, ptrs) a).1 (pushNew (s, ptrs) a).2 hinv
    rw [List.foldl_cons]
    refine ⟨Nat.le_trans (Nat.le_succ s.brk) h1, h2, ?_, ?_, h5, h6, ?_⟩
    · intro q hq
      rcases h3 q hq with hq | ⟨x, hx, hle⟩
      · rcases List.mem_append.mp hq with hq | hq
        · exact Or.inl hq
        · exact Or.inr ⟨s.brk, by simpa using hq, le_refl _⟩
      · exact Or.inr ⟨x, hx, Nat.le_of_succ_le hle⟩
    · intro x hx
      rw [h4 x (Nat.lt_succ_of_lt hx)]
      have hne : ¬ x = s.brk := Nat.ne_of_lt hx
      simp [pushNew, store, hne]
    · rw [h7]
      have hold : ∀ q ∈ ptrs,
          Option.bind q (pushNew (s, ptrs) a).1.mem.objs = Option.bind q s.mem.objs := by
        intro q hq
        obtain ⟨x, hx, hlt⟩ := h q hq
        subst hx
        have hne : ¬ x = s.brk := Nat.ne_of_lt hlt
        simp [pushNew, store, hne]
      have hmap : (pushNew (s, ptrs) a).2.map
            (fun q => Option.bind q (pushNew (s, ptrs) a).1.mem.objs)
          = ptrs.map (fun q => Option.bind q s.mem.objs) ++ [some a] := by
        show (ptrs ++ [some s.brk]).map _ = _
        rw [List.map_append, List.map_congr_left hold]
        simp [pushNew, store]
      rw [hmap]
      simp

/-- Reading a result set back right after `analyze` returned it. -/
theorem analyze_contents (M : Model) (word : List Char) (s : Store) :
    resultContents (analyze M word s).1.mem (analyze M word s).2
      = some (((segmentations M word).map M.attributeRules).map some) := by
  obtain ⟨_, h2, _, _, _, _, h7⟩ :=
    pushNew_foldl ((segmentations M word).map M.attributeRules) s [] (by simp)
  simp only [List.map_nil, List.nil_append] at h7
  simp only [analyze, resultContents, resultElems, store, if_true, Option.map_some']
  exact congrArg some h7

/-- Where `analyze` puts its result: the list at a fresh address `p`, the
elements at fresh addresses below `p`, everything allocated before untouched. -/
theorem analyze_fresh (M : Model) (word : List Char) (s : Store) :
    ∃ (p : Addr) (l : List Ptr),
      (analyze M word s).2 = some p ∧ s.brk ≤ p ∧ (analyze M word s).1.brk = p + 1 ∧
      (analyze M word s).1.mem.lists p = some l ∧
      (∀ q ∈ l, ∃ x, q = some x ∧ s.brk ≤ x ∧ x < p) ∧
      (∀ x, x < s.brk → (analyze M word s).1.mem.objs x = s.mem.objs x) ∧
      (∀ q, q < s.brk → (analyze M word s).1.mem.lists q = s.mem.lists q) ∧
      (analyze M word s).1.mem.vars = s.mem.vars := by
  obtain ⟨h1, h2, h3, h4, h5, h6, _⟩ :=
    pushNew_foldl ((segmentations M word).map M.attributeRules) s [] (by simp)
  refine ⟨(((segmentations M word).map M.attributeRules).foldl pushNew (s, [])).1.brk,
    (((segmentations M word).map M.attributeRules).foldl pushNew (s, [])).2,
    rfl, h1, rfl, by simp [analyze, store], ?_, h4, ?_, h6⟩
  · intro q hq
    obtain ⟨x, hx, hlt⟩ := h2 q hq
    rcases h3 q hq with hnil | ⟨y, hy, hle⟩
    · simp at hnil
    · refine ⟨x, hx, ?_, hlt⟩
      have hxy : x = y := Option.some.inj (hx.symm.trans hy)
      rw [hxy]; exact hle
  · intro q hq
    have hne : ¬ q = (((segmentations M word).map M.attributeRules).foldl
        pushNew (s, [])).1.brk := Nat.ne_of_lt (Nat.lt_of_lt_of_le hq h1)
    simp only [analyze, store, hne, if_false]
    rw [h5]

/-- C7. `analyze` is deterministic: for every word and a fixed model, two calls
(from any two stores) return result sets with the same Analysis contents in the
same order, namely the analyses of the accepted segmentations in traversal order.
When the second call follows the first, its result set is a distinct owned
instance: the handle differs, no element pointer is shared, and the first result
set still reads the same. -/
theorem analyze_deterministic (M : Model) (word : List Char) (s1 s2 : Store) :
    resultContents (analyze M word s1).1.mem (analyze M word s1).2
      = resultContents (analyze M word s2).1.mem (analyze M word s2).2 ∧
    resultContents (analyze M word s1).1.mem (analyze M word s1).2
      = some (((segmentations M word).map M.attributeRules).map some) ∧
    (analyze M word (analyze M word s1).1).2 ≠ (analyze M word s1).2 ∧
    (∃ l1 l2,
      resultElems (analyze M word s1).1.mem (analyze M word s1).2 = some l1 ∧
      resultElems (analyze M word (analyze M word s1).1).1.mem
        (analyze M word (analyze M word s1).1).2 = some l2 ∧
      ∀ q ∈ l1, q ∉ l2) ∧
    resultContents (analyze M word (analyze M word s1).1).1.mem (analyze M word s1).2
      = resultContents (analyze M word s1).1.mem (analyze M word s1).2 := by
  obtain ⟨p1, l1, hh1, hle1, hbrk1, hl1, hel1, _, _, _⟩ := analyze_fresh M word s1
  obtain ⟨p2, l2, hh2, hle2, _, hl2, hel2, hobj2, hlist2, _⟩ :=
    analyze_fresh M word (analyze M word s1).1
  rw [hbrk1] at hle2 hel2 hobj2 hlist2
  have hp : p1 < p2 := Nat.lt_of_succ_le hle2
  refine ⟨?_, analyze_contents M word s1, ?_, ⟨l1, l2, ?_, ?_, ?_⟩, ?_⟩
  · rw [analyze_contents, analyze_contents]
  · rw [hh1, hh2]
    intro h
    exact Nat.ne_of_gt hp (Option.some.inj h)
  · rw [hh1]; exact hl1
  · rw [hh2]; exact hl2
  · intro q hq1 hq2
    obtain ⟨x, hx, _, hx1⟩ := hel1 q hq1
    obtain ⟨y, hy, hy1, _⟩ := hel2 q hq2
    have hxy : x = y := Option.some.inj (hx.symm.trans hy)
    rw [hxy] at hx1
    exact absurd (Nat.lt_of_lt_of_le (Nat.lt_succ_of_lt hx1) hy1) (Nat.lt_irrefl _)
  · rw [hh1]
    simp only [resultContents, resultElems]
    rw [hlist2 p1 (Nat.lt_succ_self p1), hl1]
    simp only [Option.map_some']
    congr 1
    apply List.map_congr_left
    intro q hq
    obtain ⟨x, hx, _, hx1⟩ := hel1 q hq
    subst hx
    exact hobj2 x (Nat.lt_succ_of_lt hx1)

/-- The sample model on the compound `kissatalossa`: two analyses, one per reading
of the ending, each marking the compound boundary. -/
theorem analyze_sample :
    resultContents
        (analyze sampleModel "kissatalossa".toList { mem := sampleState, brk := 100 }).1.mem
        (analyze sampleModel "kissatalossa".toList { mem := sampleState, brk := 100 }).2
      = some [some [("BASEFORM", "kissatalo"), ("CLASS", "nimisana"),
                    ("STRUCTURE", "kissa=talo=ssa:INE")],
              some [("BASEFORM", "kissatalo"), ("CLASS", "nimisana"),
                    ("STRUCTURE", "kissa=talo=ssa:ADV")]] := by
  rw [analyze_contents]
  decide

end libvoikko.morphology
